import Mathlib

/-!
Verification of the `fbxnano` repository's two specified components:

* the forum nested-set tree renderer `make_tree`
  (`forum/templatetags/forum_extras.py`), and
* the Prosody shared-store adapter: `Prosody.save`, `User._get_lastlog`,
  `User.xmpp_online` (`prosodyauth/models.py`) and
  `ProsodyDatastore.get_data_store` (`prosodyauth/prosody/datastore.py`).

The Python code is shallowly embedded: posts and store rows become
structures, the renderer's `html` string is built from a token list (one
token per emitted tag or content line, concatenated to the final string),
the mutable `levels` stack becomes a Lean list whose head is the Python
list's last element (`levels[-1]`), and Python `dict` built by repeated
assignment becomes a function `String → Option α` built by a fold.
Fallible operations (`levels[-1]` on an empty list, `int(...)` on
non-numeric text) are modelled in `Except`.
-/

namespace FbxNano

/-! ## Forum tree renderer: data model -/

/-- A forum post as consumed by `make_tree`: nested-set boundaries plus the
display attributes the renderer reads (`subject`, `user.username`,
`topic.board.slug`, `pk`). -/
structure Post where
  left : Int
  right : Int
  subject : String
  username : String
  boardSlug : String
  pk : Int
deriving DecidableEq, Repr

/-- One piece of the `html` string that `make_tree` accumulates:
the outer wrapper's opening tag, a post's opening tag fused with its
content line (the code appends them as one `'<div>...'` chunk), or a
closing tag `'</div>'`. -/
inductive Item where
  | openTree : Item
  | openPost : String → Item
  | close : Item
deriving DecidableEq, Repr

/-- Is this item a post's opening tag (`'<div>' + content`)? -/
def Item.isOpenPost : Item → Bool
  | .openPost _ => true
  | _ => false

/-- Is this item an opening tag of either kind? -/
def Item.isOpen : Item → Bool
  | .openTree => true
  | .openPost _ => true
  | .close => false

/-- Is this item a closing tag `'</div>'`? -/
def Item.isClose : Item → Bool
  | .close => true
  | _ => false

/-- The content line emitted for one post, without the leading `'<div>'`.
`icon` stands for `octicon('arrow-right')` and `urlFor` for
`reverse('forum:post', ...)`, both external to the function under
verification; `current` is the `current_post` argument (default `None`),
compared by primary key as Django model equality does. -/
def postLine (icon : String) (urlFor : String → Int → String)
    (current : Option Post) (p : Post) : String :=
  match current with
  | some c =>
    if p.pk == c.pk then
      icon ++ p.subject ++ " by " ++ p.username ++ " on [date]"
    else
      "<a href=\"" ++ urlFor p.boardSlug p.pk ++ "\">" ++ p.subject ++
        "</a> by " ++ p.username ++ " on [date]"
  | none =>
    "<a href=\"" ++ urlFor p.boardSlug p.pk ++ "\">" ++ p.subject ++
      "</a> by " ++ p.username ++ " on [date]"

/-- Render one item back to the text `make_tree` appends for it. -/
def renderItem : Item → String
  | .openTree => "<div class=\"post-tree\">"
  | .openPost s => "<div>" ++ s
  | .close => "</div>"

/-! ## Forum tree renderer: the pop loop

The Python loop is

```
try:
    while levels[-1] < post.left:
        html += '</div>'
        levels.pop()
        depth -= 1
except IndexError:
    pass
```

`levels` is used as a stack (`append`/`pop`/`[-1]` at the end); we model
it as a Lean list with its head being the Python list's last element.
`popLoop` is the unguarded loop: reading `levels[-1]` from an empty stack
is the `IndexError`, and the error value carries the pops performed
before the exception, because the `html`/`levels`/`depth` mutations made
before the raise survive the `except: pass`.  `popWhile` is the net
effect after the handler. -/

/-- The unguarded pop loop, in `Except`: `.error` means `levels[-1]`
raised `IndexError`; either way the payload is (number of pops performed,
remaining stack). -/
def popLoop : List Int → Int → Except (Nat × List Int) (Nat × List Int)
  | [], _ => .error (0, [])
  | r :: rest, l =>
    if r < l then
      match popLoop rest l with
      | .ok (n, s) => .ok (n + 1, s)
      | .error (n, s) => .error (n + 1, s)
    else
      .ok (0, r :: rest)

/-- The `except IndexError: pass` handler: the state reached at the raise
point is kept and execution continues. -/
def indexCatch {α : Type} : Except α α → α
  | .ok a => a
  | .error a => a

/-- The guarded pop loop: pops while the stack is nonempty and its top is
strictly below `l`; returns (number of pops, remaining stack). -/
def popWhile : List Int → Int → Nat × List Int
  | [], _ => (0, [])
  | r :: rest, l =>
    if r < l then
      let p := popWhile rest l
      (p.1 + 1, p.2)
    else
      (0, r :: rest)

/-! ## Forum tree renderer: main loop -/

/-- The body of `make_tree`'s `for post in posts` loop, started from stack
`s` and depth counter `d`: returns the items emitted inside the loop, the
final `levels` stack and the final `depth`.  Mirrors the source: pop loop
first, then the content line, then either push `post.right` and set
`depth = len(levels)`, or emit an immediate close. -/
def processPosts (icon : String) (urlFor : String → Int → String)
    (current : Option Post) :
    List Post → List Int → Int → List Item × List Int × Int
  | [], s, d => ([], s, d)
  | p :: rest, s, d =>
    let pw := popWhile s p.left
    let line := Item.openPost (postLine icon urlFor current p)
    if 1 < p.right - p.left then
      let r := processPosts icon urlFor current rest (p.right :: pw.2)
        ((p.right :: pw.2).length : Int)
      (List.replicate pw.1 Item.close ++ line :: r.1, r.2)
    else
      let r := processPosts icon urlFor current rest pw.2 (d - (pw.1 : Int))
      (List.replicate pw.1 Item.close ++ line :: Item.close :: r.1, r.2)

/-- The full item sequence emitted by `make_tree posts current`: outer
wrapper open, the loop body, `'</div>' * depth` (Python repetition of a
negative count is empty, hence `Int.toNat`), and the final outer close. -/
def make_tree_items (icon : String) (urlFor : String → Int → String)
    (posts : List Post) (current : Option Post) : List Item :=
  let r := processPosts icon urlFor current posts [] 0
  Item.openTree :: r.1 ++ List.replicate r.2.2.toNat Item.close ++ [Item.close]

/-- The returned `html` string of `make_tree(posts, current_post)`. -/
def make_tree (icon : String) (urlFor : String → Int → String)
    (posts : List Post) (current : Option Post) : String :=
  String.join ((make_tree_items icon urlFor posts current).map renderItem)

/-! ## Forum tree renderer: exception-aware variant

The only operation in `make_tree` that can raise is `levels[-1]` inside
the pop loop, and it sits in a `try ... except IndexError: pass`.
`processPostsE` is the same loop with that structure made explicit in
`Except`: the unguarded `popLoop` runs first and `indexCatch` applies the
handler.  Since the handler swallows the error, the function provably
always returns `.ok`. -/

/-- The loop body with the `try/except` modelled explicitly. -/
def processPostsE (icon : String) (urlFor : String → Int → String)
    (current : Option Post) :
    List Post → List Int → Int → Except String (List Item × List Int × Int)
  | [], s, d => .ok ([], s, d)
  | p :: rest, s, d =>
    let pw := indexCatch (popLoop s p.left)
    let line := Item.openPost (postLine icon urlFor current p)
    if 1 < p.right - p.left then
      (processPostsE icon urlFor current rest (p.right :: pw.2)
          ((p.right :: pw.2).length : Int)).map
        (fun r => (List.replicate pw.1 Item.close ++ line :: r.1, r.2))
    else
      (processPostsE icon urlFor current rest pw.2 (d - (pw.1 : Int))).map
        (fun r => (List.replicate pw.1 Item.close ++ line :: Item.close :: r.1, r.2))

/-- Variant of `make_tree` with the raising operation tracked in `Except`. -/
def make_treeE (icon : String) (urlFor : String → Int → String)
    (posts : List Post) (current : Option Post) : Except String String :=
  (processPostsE icon urlFor current posts [] 0).map
    (fun r => String.join ((Item.openTree :: r.1 ++
      List.replicate r.2.2.toNat Item.close ++ [Item.close]).map renderItem))

/-! ## Well-formed nested-set input

The claims' notion of well-formedness: every pair of post intervals is
nested or disjoint, `left < right` for each post, and the sequence is
sorted by `left` ascending. -/

/-- Two nested-set intervals are nested (one strictly contains the other)
or disjoint. -/
def nestedOrDisjoint (a b : Post) : Prop :=
  (a.left < b.left ∧ b.right < a.right) ∨ (b.left < a.left ∧ a.right < b.right) ∨
    a.right < b.left ∨ b.right < a.left

/-- Well-formed renderer input: `left < right` everywhere, sorted by
`left` ascending, every pair nested or disjoint. -/
def wellFormed (posts : List Post) : Prop :=
  (∀ p ∈ posts, p.left < p.right) ∧
    posts.Pairwise (fun a b => a.left ≤ b.left) ∧
    posts.Pairwise nestedOrDisjoint

/-- The resolved form of `nestedOrDisjoint` for a pair in list order of a
well-formed sequence: the later post is strictly inside the earlier, or
strictly beyond it. -/
def properPair (a b : Post) : Prop :=
  a.left < b.left ∧ (b.right < a.right ∨ a.right < b.left)

/-- A post of the processed prefix `pre` whose container is still open
after `pre` has been rendered: it pushed its `right` boundary
(`right - left > 1`) and no later `left` of `pre` passed that boundary. -/
def openIn (pre : List Post) (q : Post) : Bool :=
  decide (1 < q.right - q.left) && pre.all (fun x => decide (x.left ≤ q.right))

/-- The posts of `posts` whose interval strictly contains `p`'s: the
ancestors of `p`. -/
def ancFilter (p : Post) (posts : List Post) : List Post :=
  posts.filter (fun q => decide (q.left < p.left) && decide (p.right < q.right))

/-- Number of ancestors of `p` in `posts`. -/
def ancCount (p : Post) (posts : List Post) : Nat :=
  (ancFilter p posts).length

instance : DecidableRel nestedOrDisjoint := fun a b => by
  unfold nestedOrDisjoint; exact inferInstance

instance : DecidableRel properPair := fun a b => by
  unfold properPair; exact inferInstance

instance : DecidableRel (fun a b : Post => a.left ≤ b.left) := fun a b =>
  inferInstanceAs (Decidable (a.left ≤ b.left))

instance (posts : List Post) : Decidable (wellFormed posts) := by
  unfold wellFormed; exact inferInstance

/-! ## Concrete inputs used by witnesses and counterexamples -/

/-- A concrete icon string standing for `octicon('arrow-right')`. -/
def iW : String := "<svg/>"

/-- A concrete URL builder standing for `reverse('forum:post', ...)`. -/
def uW : String → Int → String := fun board k => "/forum/" ++ board ++ "/" ++ toString k

/-- Post with interval `(1, 3)`: pushes its `right` boundary. -/
def postA : Post := ⟨1, 3, "A", "alice", "general", 11⟩

/-- Post with interval `(3, 4)`: its `left` equals `postA`'s `right`. -/
def postB : Post := ⟨3, 4, "B", "bob", "general", 12⟩

/-- Parent post of the spec's three-post example `[(1,6),(2,3),(4,5)]`. -/
def post16 : Post := ⟨1, 6, "P", "poster", "general", 1⟩

/-- First child of the three-post example. -/
def post23 : Post := ⟨2, 3, "Q", "quinn", "general", 2⟩

/-- Second child of the three-post example. -/
def post45 : Post := ⟨4, 5, "R", "riley", "general", 3⟩

/-- The spec's example sequence: one parent, two children. -/
def exC1 : List Post := [post16, post23, post45]

/-! ## Prosody shared-store adapter: data model

One row of the shared `prosody` table
(`host, user, store, key, type, value`, all text), embedded from the
`Prosody` Django model; uniqueness is on `(user, store, key)`. -/

/-- A row of the shared `prosody` table. -/
structure Row where
  host : String
  user : String
  store : String
  key : String
  type : String
  value : String
deriving DecidableEq, Repr

/-- The ordered rule table of `Prosody.save` deriving `type` from
`(store, key)`. -/
def deriveType (store key : String) : String :=
  if store == "lastlog" && key == "timestamp" then "number"
  else if store == "accounts" && key == "iterations" then "number"
  else if store == "roster" then "json"
  else if key == "persistence" then "boolean"
  else "string"

/-- The field update `Prosody.save` performs before persisting: the
`type` field is recomputed from `(store, key)`, discarding any prior
value. -/
def setType (r : Row) : Row :=
  ⟨r.host, r.user, r.store, r.key, deriveType r.store r.key, r.value⟩

/-- Row identity under the table's `(user, store, key)` uniqueness. -/
def sameKey (a b : Row) : Bool :=
  a.user == b.user && a.store == b.store && a.key == b.key

/-- Persisting a row with uniqueness enforced on `(user, store, key)`
(the model's `unique_together`): replace matching rows in place,
otherwise append. -/
def upsertRow (tbl : List Row) (r : Row) : List Row :=
  if tbl.any (fun x => sameKey x r) then
    tbl.map (fun x => if sameKey x r then r else x)
  else tbl ++ [r]

/-- Embedding of `Prosody.save`: recompute `type`, then persist. -/
def prosodySave (tbl : List Row) (r : Row) : List Row :=
  upsertRow tbl (setType r)

/-- A Python `dict` built by repeated assignment `d[k] = v` over `pairs`
in order (later assignments win), modelled by its `get`. -/
def pyDict {α : Type} (pairs : List (String × α)) : String → Option α :=
  pairs.foldl (fun d kv => fun k => if k = kv.1 then some kv.2 else d k)
    (fun _ => none)

/-- Case-insensitive string match: Django `__iexact` / SQL
`UPPER(x) = UPPER(y)`, modelled characterwise over the strings' data. -/
def ciEq (a b : String) : Bool :=
  a.data.map Char.toUpper == b.data.map Char.toUpper

/-- The filter of `User._get_lastlog`'s query:
`user__iexact=username, store='lastlog'`. -/
def lastlogRow (username : String) (r : Row) : Bool :=
  ciEq r.user username && (r.store == "lastlog")

/-- A value of the coerced lastlog mapping: `int(value)` for
number-typed rows, the raw text otherwise. -/
inductive LLValue where
  | num : Int → LLValue
  | str : String → LLValue
deriving DecidableEq, Repr

/-- A nonempty all-digit character list read as a decimal number. -/
def digitsToNat (cs : List Char) : Option Nat :=
  if cs ≠ [] ∧ cs.all Char.isDigit then
    some (cs.foldl (fun n c => n * 10 + (c.toNat - 48)) 0)
  else none

/-- Python `int(s)` on optionally-signed decimal text (surrounding
whitespace is not modelled): `none` models `ValueError`. -/
def parseIntQ (s : String) : Option Int :=
  match s.data with
  | '-' :: rest => (digitsToNat rest).map (fun n => -(n : Int))
  | '+' :: rest => (digitsToNat rest).map (fun n => (n : Int))
  | cs => (digitsToNat cs).map (fun n => (n : Int))

/-- Python `int(s)` with the `ValueError` in `Except`. -/
def intE (s : String) : Except String Int :=
  match parseIntQ s with
  | some n => .ok n
  | none => .error ("invalid literal for int() with base 10: " ++ s)

/-- The per-row coercion of `_get_lastlog`: `int(item.value)` when
`item.type == 'number'`, the raw value otherwise. -/
def coerceRow (r : Row) : Except String LLValue :=
  if r.type == "number" then (intE r.value).map LLValue.num
  else .ok (LLValue.str r.value)

/-- The same coercion with a junk default for unparseable numbers; used
to state results that assume every number-typed value parses. -/
def coerceD (r : Row) : LLValue :=
  if r.type == "number" then LLValue.num ((parseIntQ r.value).getD 0)
  else LLValue.str r.value

/-- The dict-building loop of `_get_lastlog` over the fetched rows,
with the possible `ValueError` from `int(...)` tracked in `Except`. -/
def buildLastlog (rows : List Row) : Except String (String → Option LLValue) :=
  rows.foldlM
    (fun d r => (coerceRow r).map
      (fun v => fun k => if k = r.key then some v else d k))
    (fun _ => none)

/-- Embedding of `User._get_lastlog(key)` against table `tbl` for user `username`:
fetch the matching rows, build the coerced dict, return `.get(key)`. -/
def getLastlogField (tbl : List Row) (username field : String) :
    Except String (Option LLValue) :=
  (buildLastlog (tbl.filter (lastlogRow username))).map (fun d => d field)

/-- Embedding of `User.xmpp_online`: `self._get_lastlog('event') == 'login'`. -/
def xmpp_online (tbl : List Row) (username : String) : Except String Bool :=
  (getLastlogField tbl username "event").map
    (fun v => decide (v = some (LLValue.str "login")))

/-- The row filter of `ProsodyDatastore.get_data_store`'s SQL query:
`UPPER("user")=UPPER(%s) AND UPPER(host)=UPPER(%s) AND store=%s`. -/
def gdsMatch (username domain store : String) (r : Row) : Bool :=
  ciEq r.user username && ciEq r.host domain && (r.store == store)

/-- Embedding of `ProsodyDatastore.get_data_store`: `dict(cursor.fetchall())` over the
`(key, value)` pairs of the matching rows, values raw and uncoerced. -/
def get_data_store (tbl : List Row) (username domain store : String) :
    String → Option String :=
  pyDict ((tbl.filter (gdsMatch username domain store)).map
    (fun r => (r.key, r.value)))

/-! ## Concrete rows used by witnesses and counterexamples -/

/-- A roster row whose prior `type` is `string`; its value is `"{}"`. -/
def rowRoster : Row :=
  ⟨"example.com", "alice", "roster", "contacts", "string", "\x7b\x7d"⟩

/-- A row whose key is `persistence` in a non-roster store. -/
def rowPersist : Row :=
  ⟨"example.com", "alice", "accounts", "persistence", "string", "true"⟩

/-- A lastlog `event` row mistyped as `number` with non-numeric value:
`int('login')` raises. -/
def rowEventNum : Row :=
  ⟨"example.com", "bob", "lastlog", "event", "number", "login"⟩

/-- A well-typed lastlog `event = login` row. -/
def rowEventLogin : Row :=
  ⟨"example.com", "carol", "lastlog", "event", "string", "login"⟩

/-! ## Basic lemmas about the pop loop and the main loop -/

theorem popWhile_eq : ∀ (s : List Int) (l : Int),
    popWhile s l = ((s.takeWhile (fun r => decide (r < l))).length,
      s.dropWhile (fun r => decide (r < l)))
  | [], _ => rfl
  | r :: rest, l => by
    by_cases h : r < l
    · simp [popWhile, List.takeWhile_cons, List.dropWhile_cons, h,
        popWhile_eq rest l]
    · simp [popWhile, List.takeWhile_cons, List.dropWhile_cons, h]

theorem popWhile_add_length (s : List Int) (l : Int) :
    (popWhile s l).1 + (popWhile s l).2.length = s.length := by
  rw [popWhile_eq]
  conv_rhs => rw [← @List.takeWhile_append_dropWhile _ (fun r => decide (r < l)) s]
  rw [List.length_append]

theorem indexCatch_popLoop : ∀ (s : List Int) (l : Int),
    indexCatch (popLoop s l) = popWhile s l
  | [], _ => rfl
  | r :: rest, l => by
    by_cases h : r < l
    · have ih := indexCatch_popLoop rest l
      cases hrec : popLoop rest l with
      | ok p =>
        simp [popLoop, popWhile, h, indexCatch, hrec] at ih ⊢
        simp [← ih]
      | error p =>
        simp [popLoop, popWhile, h, indexCatch, hrec] at ih ⊢
        simp [← ih]
    · simp [popLoop, popWhile, h, indexCatch]

theorem processPostsE_eq_ok (icon : String) (urlFor : String → Int → String)
    (current : Option Post) : ∀ (posts : List Post) (s : List Int) (d : Int),
    processPostsE icon urlFor current posts s d =
      .ok (processPosts icon urlFor current posts s d)
  | [], _, _ => rfl
  | p :: rest, s, d => by
    by_cases h : 1 < p.right - p.left
    · simp [processPostsE, processPosts, h, indexCatch_popLoop,
        processPostsE_eq_ok icon urlFor current rest, Except.map]
    · simp [processPostsE, processPosts, h, indexCatch_popLoop,
        processPostsE_eq_ok icon urlFor current rest, Except.map]

theorem processPosts_append (icon : String) (urlFor : String → Int → String)
    (current : Option Post) : ∀ (l₁ l₂ : List Post) (s : List Int) (d : Int),
    processPosts icon urlFor current (l₁ ++ l₂) s d =
      ((processPosts icon urlFor current l₁ s d).1 ++
        (processPosts icon urlFor current l₂
          (processPosts icon urlFor current l₁ s d).2.1
          (processPosts icon urlFor current l₁ s d).2.2).1,
       (processPosts icon urlFor current l₂
          (processPosts icon urlFor current l₁ s d).2.1
          (processPosts icon urlFor current l₁ s d).2.2).2)
  | [], l₂, s, d => by simp [processPosts]
  | p :: rest, l₂, s, d => by
    by_cases h : 1 < p.right - p.left
    · simp [processPosts, h, processPosts_append icon urlFor current rest l₂]
    · simp [processPosts, h, processPosts_append icon urlFor current rest l₂]

theorem processPosts_depth (icon : String) (urlFor : String → Int → String)
    (current : Option Post) : ∀ (posts : List Post) (s : List Int) (d : Int),
    d = (s.length : Int) →
    (processPosts icon urlFor current posts s d).2.2 =
      ((processPosts icon urlFor current posts s d).2.1.length : Int)
  | [], s, d, hd => by simpa [processPosts] using hd
  | p :: rest, s, d, hd => by
    by_cases h : 1 < p.right - p.left
    · simp only [processPosts, h, if_true]
      exact processPosts_depth icon urlFor current rest _ _ rfl
    · simp only [processPosts, h, if_false]
      refine processPosts_depth icon urlFor current rest _ _ ?_
      have hlen := popWhile_add_length s p.left
      omega

theorem countP_replicate {α : Type} (p : α → Bool) (n : Nat) (a : α) :
    (List.replicate n a).countP p = if p a then n else 0 := by
  induction n with
  | zero => simp
  | succ n ih =>
    rw [List.replicate_succ, List.countP_cons, ih]
    split <;> omega

theorem processPosts_countOpen (icon : String)
    (urlFor : String → Int → String) (current : Option Post)
    (p : Item → Bool) (hc : p Item.close = false)
    (ho : ∀ s, p (Item.openPost s) = true) :
    ∀ (posts : List Post) (s : List Int) (d : Int),
    (processPosts icon urlFor current posts s d).1.countP p = posts.length
  | [], _, _ => by simp [processPosts]
  | q :: rest, s, d => by
    by_cases h : 1 < q.right - q.left
    · simp [processPosts, h, List.countP_append, List.countP_cons,
        countP_replicate, hc, ho,
        processPosts_countOpen icon urlFor current p hc ho rest]
    · simp [processPosts, h, List.countP_append, List.countP_cons,
        countP_replicate, hc, ho,
        processPosts_countOpen icon urlFor current p hc ho rest]

theorem processPosts_countClose (icon : String)
    (urlFor : String → Int → String) (current : Option Post) :
    ∀ (posts : List Post) (s : List Int) (d : Int),
    (processPosts icon urlFor current posts s d).1.countP Item.isClose +
      (processPosts icon urlFor current posts s d).2.1.length
      = posts.length + s.length
  | [], s, _ => by simp [processPosts]
  | q :: rest, s, d => by
    have hlen := popWhile_add_length s q.left
    by_cases h : 1 < q.right - q.left
    · have ih := processPosts_countClose icon urlFor current rest
        (q.right :: (popWhile s q.left).2)
        ((q.right :: (popWhile s q.left).2).length : Int)
      simp [processPosts, h, List.countP_append, List.countP_cons,
        countP_replicate, Item.isClose] at ih ⊢
      omega
    · have ih := processPosts_countClose icon urlFor current rest
        (popWhile s q.left).2 (d - ((popWhile s q.left).1 : Int))
      simp [processPosts, h, List.countP_append, List.countP_cons,
        countP_replicate, Item.isClose] at ih ⊢
      omega

/-! ## Claim C5: empty input -/

/-- C5: `make_tree` applied to the empty input sequence returns exactly
the outer wrapper container, opened and then closed, with no post content
and no other tags. -/
theorem make_tree_empty_input :
    ∀ (icon : String) (urlFor : String → Int → String) (current : Option Post),
    make_tree icon urlFor [] current = "<div class=\"post-tree\"></div>" := by
  intro icon urlFor current
  rfl

/-! ## Claim C9: balanced markup for every input -/

/-- C9: for every finite input sequence, whatever the `left`/`right`
values, the emitted markup has exactly as many close tags as open tags,
namely one more than the number of posts. -/
theorem make_tree_balanced_markup :
    ∀ (icon : String) (urlFor : String → Int → String) (posts : List Post)
      (current : Option Post),
    (make_tree_items icon urlFor posts current).countP Item.isClose = posts.length + 1 ∧
    (make_tree_items icon urlFor posts current).countP Item.isOpen = posts.length + 1 := by
  intro icon urlFor posts current
  have hdepth := processPosts_depth icon urlFor current posts [] 0 (by simp)
  have hclose := processPosts_countClose icon urlFor current posts [] 0
  have hopen := processPosts_countOpen icon urlFor current Item.isOpen rfl
    (fun _ => rfl) posts [] 0
  constructor
  · simp [make_tree_items, List.countP_append, List.countP_cons,
      countP_replicate, Item.isClose, hdepth] at hclose ⊢
    omega
  · simp [make_tree_items, List.countP_append, List.countP_cons,
      countP_replicate, Item.isOpen] at hopen ⊢
    omega

/-! ## Claim C4: totality, the caught `IndexError` -/

/-- C4: `make_tree` is total: the only raising operation, `levels[-1]` on
an empty stack inside the pop loop, is caught (`except IndexError: pass`)
and treated as "nothing to close"; modelling that raise in `Except`, the
whole renderer returns `.ok` of the total function's string on every
input, malformed nested-set data included. -/
theorem make_tree_never_raises :
    (∀ (s : List Int) (l : Int), indexCatch (popLoop s l) = popWhile s l) ∧
    (∀ l : Int, popLoop [] l = .error (0, [])) ∧
    (∀ (icon : String) (urlFor : String → Int → String) (posts : List Post)
      (current : Option Post),
      make_treeE icon urlFor posts current =
        .ok (make_tree icon urlFor posts current)) := by
  refine ⟨indexCatch_popLoop, fun _ => rfl, fun icon urlFor posts current => ?_⟩
  simp [make_treeE, make_tree, make_tree_items,
    processPostsE_eq_ok icon urlFor current posts, Except.map]

/-! ## Claim C3: push or immediately close -/

/-- C3: processing one post from any stack/depth state: after the pop
loop and the post's content, if `right - left > 1` the post's `right` is
pushed and its container stays open (no close tag emitted for it);
otherwise an immediate close tag is emitted and the stack is left as the
pop loop produced it.  The third conjunct places the single-post step
inside an arbitrary longer run. -/
theorem make_tree_post_step :
    ∀ (icon : String) (urlFor : String → Int → String) (current : Option Post)
      (p : Post) (rest : List Post) (s : List Int) (d : Int),
    (1 < p.right - p.left →
      processPosts icon urlFor current [p] s d =
        (List.replicate (popWhile s p.left).1 Item.close ++
          [Item.openPost (postLine icon urlFor current p)],
         p.right :: (popWhile s p.left).2,
         ((p.right :: (popWhile s p.left).2).length : Int))) ∧
    (p.right - p.left ≤ 1 →
      processPosts icon urlFor current [p] s d =
        (List.replicate (popWhile s p.left).1 Item.close ++
          [Item.openPost (postLine icon urlFor current p), Item.close],
         (popWhile s p.left).2, d - ((popWhile s p.left).1 : Int))) ∧
    processPosts icon urlFor current (p :: rest) s d =
      ((processPosts icon urlFor current [p] s d).1 ++
        (processPosts icon urlFor current rest
          (processPosts icon urlFor current [p] s d).2.1
          (processPosts icon urlFor current [p] s d).2.2).1,
       (processPosts icon urlFor current rest
          (processPosts icon urlFor current [p] s d).2.1
          (processPosts icon urlFor current [p] s d).2.2).2) := by
  intro icon urlFor current p rest s d
  refine ⟨fun h => ?_, fun h => ?_, ?_⟩
  · simp [processPosts, h]
  · have h' : ¬ 1 < p.right - p.left := by omega
    simp [processPosts, h']
  · have := processPosts_append icon urlFor current [p] rest s d
    simpa using this

/-- Witness for C3: both branches at concrete inputs.  `post16` (interval
`(1,6)`) pushes its boundary; `postB` (interval `(3,4)`) gets an
immediate close, here after popping the stale boundary `2`. -/
theorem make_tree_post_step_witness :
    (1 < post16.right - post16.left ∧
      processPosts iW uW none [post16] [] 0 =
        ([Item.openPost (postLine iW uW none post16)], [6], 1)) ∧
    (postB.right - postB.left ≤ 1 ∧
      processPosts iW uW none [postB] [2] 5 =
        ([Item.close, Item.openPost (postLine iW uW none postB), Item.close],
         [], 4)) := by
  constructor
  · refine ⟨by decide, ?_⟩
    have h := (make_tree_post_step iW uW none post16 [] [] 0).1 (by decide)
    rw [h]; decide
  · refine ⟨by decide, ?_⟩
    have h := (make_tree_post_step iW uW none postB [] [2] 5).2.1 (by decide)
    rw [h]; decide

/-! ## Claim C2: the eager close loop

The code pops while `levels[-1] < post.left` — the comparison is strict.
A currently-open container whose recorded `right` boundary *equals* the
new post's `left` is **not** closed, so the claim's "less than or equal"
fails; the counterexample below exhibits it.  The amended statement uses
the strict comparison: before a post's content, the renderer closes
exactly the maximal run of innermost open containers whose boundaries are
strictly below the post's `left`, one close tag per container, innermost
first. -/

/-- C2 counterexample: with posts `(1,3)` then `(3,4)`, the first post's
container is open with `right = 3 ≤ 3 = left` of the second post when the
second post is emitted, yet no close tag precedes the second post's
content (the first two items are the wrapper open and post A's open, with
zero closes among them, and item 2 is post B's open). -/
theorem make_tree_close_le_cex :
    1 < postA.right - postA.left ∧
    postA.right ≤ postB.left ∧
    make_tree_items iW uW [postA, postB] none =
      [Item.openTree, Item.openPost (postLine iW uW none postA),
       Item.openPost (postLine iW uW none postB),
       Item.close, Item.close, Item.close] ∧
    ((make_tree_items iW uW [postA, postB] none).take 2).countP Item.isClose = 0 := by
  refine ⟨by decide, by decide, by decide, by decide⟩

/-- Helper: the output of `make_tree` on `pre ++ p :: rest` decomposes,
just before `p`'s content line, into the wrapper open, the items for
`pre`, and one close tag per boundary popped by `popWhile` at `p.left`. -/
theorem emit_decomp (icon : String) (urlFor : String → Int → String)
    (current : Option Post) (pre rest : List Post) (p : Post) :
    ∃ tail : List Item,
      make_tree_items icon urlFor (pre ++ p :: rest) current =
        Item.openTree ::
          ((processPosts icon urlFor current pre [] 0).1 ++
            List.replicate
              (popWhile (processPosts icon urlFor current pre [] 0).2.1 p.left).1
              Item.close ++
            Item.openPost (postLine icon urlFor current p) :: tail) := by
  have happ := processPosts_append icon urlFor current pre (p :: rest) [] 0
  by_cases h : 1 < p.right - p.left
  · refine ⟨(processPosts icon urlFor current rest
        (p.right :: (popWhile (processPosts icon urlFor current pre [] 0).2.1 p.left).2)
        ((p.right ::
          (popWhile (processPosts icon urlFor current pre [] 0).2.1 p.left).2).length : Int)).1 ++
        List.replicate (processPosts icon urlFor current (pre ++ p :: rest) [] 0).2.2.toNat
          Item.close ++ [Item.close], ?_⟩
    simp only [make_tree_items, happ]
    simp [processPosts, h]
  · refine ⟨Item.close ::
        (processPosts icon urlFor current rest
          (popWhile (processPosts icon urlFor current pre [] 0).2.1 p.left).2
          ((processPosts icon urlFor current pre [] 0).2.2 -
            ((popWhile (processPosts icon urlFor current pre [] 0).2.1 p.left).1 : Int))).1 ++
        List.replicate (processPosts icon urlFor current (pre ++ p :: rest) [] 0).2.2.toNat
          Item.close ++ [Item.close], ?_⟩
    simp only [make_tree_items, happ]
    simp [processPosts, h]

/-- C2 (amended): before emitting a new post's content the renderer
closes, innermost first, exactly those currently-open containers popped
while the top of the stack is *strictly less than* the new post's `left`:
the close tags emitted between the preceding output and the post's
content line are one per popped boundary, the popped boundaries are the
maximal strictly-below-`left` prefix of the stack, and the rest of the
stack survives. -/
theorem make_tree_close_loop_strict :
    ∀ (icon : String) (urlFor : String → Int → String) (current : Option Post)
      (posts pre rest : List Post) (p : Post),
    posts = pre ++ p :: rest →
    ∃ tail : List Item,
      make_tree_items icon urlFor posts current =
        Item.openTree ::
          ((processPosts icon urlFor current pre [] 0).1 ++
            List.replicate
              (popWhile (processPosts icon urlFor current pre [] 0).2.1 p.left).1
              Item.close ++
            Item.openPost (postLine icon urlFor current p) :: tail) ∧
      (popWhile (processPosts icon urlFor current pre [] 0).2.1 p.left).1 =
        ((processPosts icon urlFor current pre [] 0).2.1.takeWhile
          (fun r => decide (r < p.left))).length ∧
      (popWhile (processPosts icon urlFor current pre [] 0).2.1 p.left).2 =
        (processPosts icon urlFor current pre [] 0).2.1.dropWhile
          (fun r => decide (r < p.left)) := by
  intro icon urlFor current posts pre rest p hsplit
  subst hsplit
  have hpw := popWhile_eq (processPosts icon urlFor current pre [] 0).2.1 p.left
  obtain ⟨tail, htail⟩ := emit_decomp icon urlFor current pre rest p
  exact ⟨tail, htail, by rw [hpw], by rw [hpw]⟩

/-- Witness for C2 (amended), at the concrete two-post input
`[postA, postB]` split as `[postA] ++ postB :: []`. -/
theorem make_tree_close_loop_strict_witness :
    ∃ tail : List Item,
      make_tree_items iW uW [postA, postB] none =
        Item.openTree ::
          ((processPosts iW uW none [postA] [] 0).1 ++
            List.replicate
              (popWhile (processPosts iW uW none [postA] [] 0).2.1 postB.left).1
              Item.close ++
            Item.openPost (postLine iW uW none postB) :: tail) ∧
      (popWhile (processPosts iW uW none [postA] [] 0).2.1 postB.left).1 =
        ((processPosts iW uW none [postA] [] 0).2.1.takeWhile
          (fun r => decide (r < postB.left))).length ∧
      (popWhile (processPosts iW uW none [postA] [] 0).2.1 postB.left).2 =
        (processPosts iW uW none [postA] [] 0).2.1.dropWhile
          (fun r => decide (r < postB.left)) :=
  make_tree_close_loop_strict iW uW none [postA, postB] [postA] [] postB rfl

/-! ## Claim C1: depth equals number of open ancestors

On well-formed input the `levels` stack after processing a prefix `pre`
is exactly the reversed list of `right` boundaries of the still-open
posts of `pre`, and after the pop loop for the next post `p` it is the
reversed list of `right` boundaries of `p`'s ancestors.  The nesting
depth at `p`'s content line therefore equals the number of `p`'s
ancestors. -/

theorem wellFormed_pairwise_proper {posts : List Post} (h : wellFormed posts) :
    posts.Pairwise properPair := by
  obtain ⟨hlr, hle, hnd⟩ := h
  refine (hle.and hnd).imp_of_mem ?_
  intro a b ha hb hab
  have h1 := hlr a ha
  have h2 := hlr b hb
  obtain ⟨hab1, hab2⟩ := hab
  unfold nestedOrDisjoint at hab2
  unfold properPair
  rcases hab2 with ⟨h3, h4⟩ | ⟨h3, h4⟩ | h3 | h3
  · exact ⟨h3, Or.inl h4⟩
  · omega
  · exact ⟨by omega, Or.inr h3⟩
  · omega

theorem wellFormed_append_left {l₁ l₂ : List Post} (h : wellFormed (l₁ ++ l₂)) :
    wellFormed l₁ := by
  obtain ⟨hlr, hle, hnd⟩ := h
  exact ⟨fun p hp => hlr p (List.mem_append_left _ hp),
    hle.sublist (List.sublist_append_left _ _),
    hnd.sublist (List.sublist_append_left _ _)⟩

theorem openIn_chain {pre : List Post} (hpp : pre.Pairwise properPair) :
    (pre.filter (openIn pre)).Pairwise (fun a b => b.right < a.right) := by
  refine (hpp.filter (openIn pre)).imp_of_mem ?_
  intro a b ha hb hab
  have hb' := (List.mem_filter.mp hb).1
  have ha2 := (List.mem_filter.mp ha).2
  unfold openIn at ha2
  rw [Bool.and_eq_true] at ha2
  have hall := ha2.2
  rw [List.all_eq_true] at hall
  have hba := hall b hb'
  rw [decide_eq_true_eq] at hba
  obtain ⟨hlt, hcase⟩ := hab
  rcases hcase with h | h
  · exact h
  · omega

theorem stack_sorted {pre : List Post} (hpp : pre.Pairwise properPair) :
    (((pre.filter (openIn pre)).map (fun q => q.right)).reverse).Pairwise
      (fun a b : Int => a < b) := by
  rw [List.pairwise_reverse, List.pairwise_map]
  exact openIn_chain hpp

theorem dropWhile_sorted_eq_filter (l : Int) : ∀ (s : List Int),
    s.Pairwise (fun a b : Int => a < b) →
    s.dropWhile (fun r => decide (r < l)) = s.filter (fun r => decide (l ≤ r))
  | [], _ => rfl
  | r :: rest, h => by
    rw [List.pairwise_cons] at h
    by_cases hr : r < l
    · have hnle : ¬ (l ≤ r) := by omega
      simp [List.dropWhile_cons, List.filter_cons, hr, hnle,
        dropWhile_sorted_eq_filter l rest h.2]
    · have hle : l ≤ r := by omega
      simp [List.dropWhile_cons, List.filter_cons, hr, hle]
      refine (List.filter_eq_self.mpr ?_).symm
      intro a ha
      have := h.1 a ha
      simp only [decide_eq_true_eq]
      omega

theorem stack_char (icon : String) (urlFor : String → Int → String)
    (current : Option Post) : ∀ (pre : List Post), wellFormed pre →
    (processPosts icon urlFor current pre [] 0).2.1 =
      ((pre.filter (openIn pre)).map (fun q => q.right)).reverse := by
  intro pre
  induction pre using List.reverseRecOn with
  | nil => intro _; simp [processPosts]
  | append_singleton l q ih =>
    intro hwf
    have hwfl := wellFormed_append_left hwf
    have hpp := wellFormed_pairwise_proper hwf
    have hacross : ∀ x ∈ l, properPair x q := by
      rw [List.pairwise_append] at hpp
      intro x hx
      exact hpp.2.2 x hx q (by simp)
    have hq : q.left < q.right := hwf.1 q (by simp)
    -- the still-open posts of `l ++ [q]`
    have hfiltl : (l ++ [q]).filter (openIn (l ++ [q])) =
        ((l.filter (openIn l)).filter (fun x => decide (q.left ≤ x.right))) ++
          (if 1 < q.right - q.left then [q] else []) := by
      rw [List.filter_append, List.filter_filter]
      congr 1
      · refine List.filter_congr ?_
        intro x hx
        by_cases h1 : 1 < x.right - x.left <;>
          by_cases h2 : q.left ≤ x.right <;>
            by_cases h3 : l.all (fun y => decide (y.left ≤ x.right)) = true <;>
              simp [openIn, List.all_append, List.all_cons, List.all_nil,
                h1, h2, h3]
      · have hopenq : openIn (l ++ [q]) q = decide (1 < q.right - q.left) := by
          simp only [openIn, List.all_append, List.all_cons, List.all_nil,
          Bool.and_true]
          have hall : l.all (fun x => decide (x.left ≤ q.right)) = true := by
            rw [List.all_eq_true]
            intro x hx
            have := (hacross x hx).1
            simp only [decide_eq_true_eq]
            omega
          rw [hall]
          simp [hq.le]
        rw [List.filter_cons, List.filter_nil, hopenq]
        by_cases h : 1 < q.right - q.left <;> simp [h]
    have hsorted := stack_sorted (wellFormed_pairwise_proper hwfl)
    have happ := processPosts_append icon urlFor current l [q] [] 0
    have hstep : (processPosts icon urlFor current (l ++ [q]) [] 0).2.1 =
        if 1 < q.right - q.left then
          q.right :: (popWhile (processPosts icon urlFor current l [] 0).2.1 q.left).2
        else (popWhile (processPosts icon urlFor current l [] 0).2.1 q.left).2 := by
      rw [happ]
      by_cases h : 1 < q.right - q.left <;> simp [processPosts, h]
    rw [hstep, hfiltl]
    have hpop : (popWhile (processPosts icon urlFor current l [] 0).2.1 q.left).2 =
        (((l.filter (openIn l)).filter
          (fun x => decide (q.left ≤ x.right))).map (fun x => x.right)).reverse := by
      rw [popWhile_eq]
      rw [ih hwfl]
      rw [dropWhile_sorted_eq_filter q.left _ hsorted]
      rw [List.filter_reverse, List.filter_map]
      rfl
    rw [hpop]
    by_cases h : 1 < q.right - q.left <;>
      simp [h, List.map_append, List.reverse_append]

theorem popAt_ancestors (icon : String) (urlFor : String → Int → String)
    (current : Option Post) (pre rest : List Post) (p : Post)
    (hwf : wellFormed (pre ++ p :: rest)) :
    (popWhile (processPosts icon urlFor current pre [] 0).2.1 p.left).2 =
      ((ancFilter p pre).map (fun q => q.right)).reverse ∧
    ancFilter p (pre ++ p :: rest) = ancFilter p pre := by
  have hwfpre := wellFormed_append_left hwf
  have hpp := wellFormed_pairwise_proper hwf
  have hacross : ∀ x ∈ pre, properPair x p := by
    rw [List.pairwise_append] at hpp
    intro x hx
    exact hpp.2.2 x hx p (by simp)
  have hrest : ∀ y ∈ rest, properPair p y := by
    rw [List.pairwise_append, List.pairwise_cons] at hpp
    intro y hy
    exact hpp.2.1.1 y hy
  have hp : p.left < p.right := hwf.1 p (by simp)
  constructor
  · rw [popWhile_eq, stack_char icon urlFor current pre hwfpre,
      dropWhile_sorted_eq_filter p.left _
        (stack_sorted (wellFormed_pairwise_proper hwfpre)),
      List.filter_reverse, List.filter_map, List.filter_filter]
    unfold ancFilter
    dsimp only
    refine congrArg List.reverse (congrArg (List.map _) (List.filter_congr ?_))
    intro x hx
    have hxp := hacross x hx
    rcases hxp.2 with h5 | h5
    · -- `x` strictly contains `p`: every conjunct on both sides holds
      have h1 : 1 < x.right - x.left := by have := hxp.1; have := hp; omega
      have h2 : p.left ≤ x.right := by have := hp; omega
      have hall : pre.all (fun y => decide (y.left ≤ x.right)) = true := by
        rw [List.all_eq_true]
        intro y hy
        have := (hacross y hy).1
        simp only [decide_eq_true_eq]
        omega
      simp [openIn, Function.comp, h1, h2, hall, hxp.1, h5]
    · -- `x` closed before `p`: both sides are false
      have h2 : ¬ (p.left ≤ x.right) := by omega
      have h5' : ¬ (p.right < x.right) := by have := hp; omega
      simp [openIn, Function.comp, h2, h5']
  · unfold ancFilter
    rw [List.filter_append]
    have : (p :: rest).filter
        (fun q => decide (q.left < p.left) && decide (p.right < q.right)) = [] := by
      rw [List.filter_eq_nil_iff]
      intro y hy
      rcases List.mem_cons.mp hy with hy | hy
      · subst hy; simp
      · have := (hrest y hy).1
        simp only [Bool.and_eq_true, decide_eq_true_eq]
        omega
    rw [this, List.append_nil]

/-- C1: on well-formed nested-set input `make_tree` emits exactly one
open container tag per post and exactly one close tag per post (plus the
single outer wrapper pair), and at the point where each post's content is
emitted the nesting depth — open post-container tags so far minus close
tags so far — equals the number of that post's ancestors, i.e. the number
of currently-open ancestor containers. -/
theorem make_tree_wellformed_output :
    ∀ (icon : String) (urlFor : String → Int → String) (current : Option Post)
      (posts : List Post), wellFormed posts →
    (make_tree_items icon urlFor posts current).countP Item.isOpenPost = posts.length ∧
    (make_tree_items icon urlFor posts current).countP Item.isClose = posts.length + 1 ∧
    ∀ (pre rest : List Post) (p : Post), posts = pre ++ p :: rest →
      ∃ tail : List Item,
        make_tree_items icon urlFor posts current =
          Item.openTree ::
            ((processPosts icon urlFor current pre [] 0).1 ++
              List.replicate
                (popWhile (processPosts icon urlFor current pre [] 0).2.1 p.left).1
                Item.close ++
              Item.openPost (postLine icon urlFor current p) :: tail) ∧
        ((processPosts icon urlFor current pre [] 0).1 ++
          List.replicate
            (popWhile (processPosts icon urlFor current pre [] 0).2.1 p.left).1
            Item.close).countP Item.isOpenPost =
          ancCount p posts +
            ((processPosts icon urlFor current pre [] 0).1 ++
              List.replicate
                (popWhile (processPosts icon urlFor current pre [] 0).2.1 p.left).1
                Item.close).countP Item.isClose := by
  intro icon urlFor current posts hwf
  refine ⟨?_, ?_, ?_⟩
  · have hopen := processPosts_countOpen icon urlFor current Item.isOpenPost rfl
      (fun _ => rfl) posts [] 0
    simp [make_tree_items, List.countP_append, List.countP_cons,
      countP_replicate, Item.isOpenPost, hopen]
  · have hdepth := processPosts_depth icon urlFor current posts [] 0 (by simp)
    have hclose := processPosts_countClose icon urlFor current posts [] 0
    simp [make_tree_items, List.countP_append, List.countP_cons,
      countP_replicate, Item.isClose, hdepth] at hclose ⊢
    omega
  · intro pre rest p hsplit
    subst hsplit
    obtain ⟨tail, htail⟩ := emit_decomp icon urlFor current pre rest p
    refine ⟨tail, htail, ?_⟩
    have hpopA := popAt_ancestors icon urlFor current pre rest p hwf
    have hopen := processPosts_countOpen icon urlFor current Item.isOpenPost rfl
      (fun _ => rfl) pre [] 0
    have hclose := processPosts_countClose icon urlFor current pre [] 0
    have hlen := popWhile_add_length (processPosts icon urlFor current pre [] 0).2.1
      p.left
    have hanc : (popWhile (processPosts icon urlFor current pre [] 0).2.1 p.left).2.length
        = ancCount p (pre ++ p :: rest) := by
      rw [hpopA.1]
      simp [ancCount, hpopA.2]
    simp [List.countP_append, countP_replicate, Item.isOpenPost, Item.isClose,
      hopen] at hclose ⊢
    omega

/-- Witness for C1 at the spec's example `[(1,6),(2,3),(4,5)]`: the input
is well-formed, the output has three post opens and four closes, and at
the first child's content line the depth is `ancCount post23 exC1 = 1`. -/
theorem make_tree_wellformed_output_witness :
    wellFormed exC1 ∧
    (make_tree_items iW uW exC1 none).countP Item.isOpenPost = 3 ∧
    (make_tree_items iW uW exC1 none).countP Item.isClose = 4 ∧
    ∃ tail : List Item,
      make_tree_items iW uW exC1 none =
        Item.openTree ::
          ((processPosts iW uW none [post16] [] 0).1 ++
            List.replicate
              (popWhile (processPosts iW uW none [post16] [] 0).2.1 post23.left).1
              Item.close ++
            Item.openPost (postLine iW uW none post23) :: tail) ∧
      ((processPosts iW uW none [post16] [] 0).1 ++
        List.replicate
          (popWhile (processPosts iW uW none [post16] [] 0).2.1 post23.left).1
          Item.close).countP Item.isOpenPost =
        ancCount post23 exC1 +
          ((processPosts iW uW none [post16] [] 0).1 ++
            List.replicate
              (popWhile (processPosts iW uW none [post16] [] 0).2.1 post23.left).1
              Item.close).countP Item.isClose := by
  have h := make_tree_wellformed_output iW uW none exC1 (by decide)
  refine ⟨by decide, ?_, ?_, ?_⟩
  · simpa [exC1] using h.1
  · simpa [exC1] using h.2.1
  · exact h.2.2 [post16] [post45] post23 rfl

/-! ## Prosody store: dictionary and save lemmas -/

theorem pyDictFold_eq {α : Type} : ∀ (pairs : List (String × α))
    (d : String → Option α) (k : String),
    (pairs.foldl (fun d kv => fun k' => if k' = kv.1 then some kv.2 else d k') d) k =
      match (pairs.filter (fun kv => kv.1 == k)).getLast? with
      | some kv => some kv.2
      | none => d k := by
  intro pairs
  induction pairs using List.reverseRecOn with
  | nil => intro d k; rfl
  | append_singleton ps p ih =>
    intro d k
    rw [List.foldl_append, List.filter_append]
    simp only [List.foldl_cons, List.foldl_nil, List.filter_cons, List.filter_nil]
    by_cases hk : (p.1 == k) = true
    · have hk' : k = p.1 := ((beq_iff_eq).mp hk).symm
      simp [hk, hk', List.getLast?_concat]
    · have hk' : ¬ (k = p.1) := by
        intro he
        exact hk (by simp [he])
      simp [hk, hk', ih d k]

theorem getLast?_all_eq {α : Type} : ∀ (l : List α) (a : α), l ≠ [] →
    (∀ x ∈ l, x = a) → l.getLast? = some a
  | [], _, hne, _ => absurd rfl hne
  | [x], a, _, h => by rw [h x (by simp)]; rfl
  | x :: y :: t, a, _, h => by
    rw [List.getLast?_cons_cons]
    exact getLast?_all_eq (y :: t) a (by simp)
      (fun z hz => h z (List.mem_cons_of_mem x hz))

theorem pyDict_getLast {α : Type} (pairs : List (String × α)) (k : String) :
    pyDict pairs k =
      ((pairs.filter (fun kv => kv.1 == k)).getLast?).map (fun kv => kv.2) := by
  unfold pyDict
  rw [pyDictFold_eq]
  cases (pairs.filter (fun kv => kv.1 == k)).getLast? <;> rfl

theorem setType_mem_save (tbl : List Row) (r : Row) :
    setType r ∈ prosodySave tbl r := by
  unfold prosodySave upsertRow
  by_cases h : tbl.any (fun x => sameKey x (setType r)) = true
  · rw [if_pos h]
    obtain ⟨x, hx, hxk⟩ := List.any_eq_true.mp h
    exact List.mem_map.mpr ⟨x, hx, by rw [if_pos hxk]⟩
  · rw [if_neg h]
    simp

theorem mem_save {tbl : List Row} {r y : Row} (hy : y ∈ prosodySave tbl r) :
    y = setType r ∨ (y ∈ tbl ∧ sameKey y (setType r) = false) := by
  unfold prosodySave upsertRow at hy
  by_cases h : tbl.any (fun x => sameKey x (setType r)) = true
  · rw [if_pos h] at hy
    obtain ⟨x, hx, hxy⟩ := List.mem_map.mp hy
    by_cases hk : sameKey x (setType r) = true
    · left; rw [if_pos hk] at hxy; exact hxy.symm
    · right
      rw [if_neg hk] at hxy
      subst hxy
      exact ⟨hx, by simpa using hk⟩
  · rw [if_neg h] at hy
    rcases List.mem_append.mp hy with h' | h'
    · right
      cases hsk : sameKey y (setType r) with
      | false => exact ⟨h', rfl⟩
      | true => exact absurd (List.any_eq_true.mpr ⟨y, h', hsk⟩) h
    · left; simpa using h'

theorem foldLastlog_ok : ∀ (rows : List Row) (d : String → Option LLValue),
    (∀ r ∈ rows, r.type = "number" → (parseIntQ r.value).isSome = true) →
    List.foldlM
      (fun d r => (coerceRow r).map
        (fun v => fun k => if k = r.key then some v else d k)) d rows =
      .ok (List.foldl
        (fun d r => fun k => if k = r.key then some (coerceD r) else d k) d rows)
  | [], _, _ => rfl
  | r :: rs, d, hpar => by
    have hcoerce : coerceRow r = .ok (coerceD r) := by
      unfold coerceRow coerceD
      by_cases ht : (r.type == "number") = true
      · rw [if_pos ht, if_pos ht]
        have hp := hpar r (by simp) (by simpa using ht)
        unfold intE
        cases hpq : parseIntQ r.value with
        | some n => simp [hpq, Except.map]
        | none => rw [hpq] at hp; simp at hp
      · rw [if_neg ht, if_neg ht]
    rw [List.foldlM_cons, hcoerce]
    exact foldLastlog_ok rs _
      (fun x hx hxt => hpar x (List.mem_cons_of_mem r hx) hxt)

theorem buildLastlog_ok (rows : List Row)
    (hpar : ∀ r ∈ rows, r.type = "number" → (parseIntQ r.value).isSome = true) :
    buildLastlog rows =
      .ok (pyDict (rows.map (fun r => (r.key, coerceD r)))) := by
  unfold buildLastlog pyDict
  rw [foldLastlog_ok rows _ hpar]
  congr 1
  rw [List.foldl_map]

theorem getLastlog_eq (tbl : List Row) (username field : String)
    (hpar : ∀ r ∈ tbl.filter (lastlogRow username),
      r.type = "number" → (parseIntQ r.value).isSome = true) :
    getLastlogField tbl username field =
      .ok ((((tbl.filter (lastlogRow username)).filter
        (fun r => r.key == field)).getLast?).map coerceD) := by
  unfold getLastlogField
  rw [buildLastlog_ok _ hpar]
  simp only [Except.map]
  congr 1
  rw [pyDict_getLast, List.filter_map, List.getLast?_map, Option.map_map]
  rfl

/-! ## Claim C6: the type rule table of `Prosody.save` -/

/-- C6: `Prosody.save` derives the stored `type` purely from
`(store, key)` via the ordered rule table, recomputing on every save
regardless of the row's prior `type`, and the saved (retyped) row is in
the table afterwards. -/
theorem prosody_save_type_rule : ∀ (r : Row),
    (setType r).type = deriveType r.store r.key ∧
    (∀ tbl : List Row, setType r ∈ prosodySave tbl r) ∧
    (∀ t : String, setType ⟨r.host, r.user, r.store, r.key, t, r.value⟩ = setType r) ∧
    (r.store = "lastlog" → r.key = "timestamp" → (setType r).type = "number") ∧
    (r.store = "accounts" → r.key = "iterations" → (setType r).type = "number") ∧
    (r.store = "roster" → (setType r).type = "json") ∧
    (r.key = "persistence" → r.store ≠ "roster" → (setType r).type = "boolean") ∧
    (¬(r.store = "lastlog" ∧ r.key = "timestamp") →
      ¬(r.store = "accounts" ∧ r.key = "iterations") →
      r.store ≠ "roster" → r.key ≠ "persistence" → (setType r).type = "string") := by
  intro r
  refine ⟨rfl, fun tbl => setType_mem_save tbl r, fun t => rfl,
    ?_, ?_, ?_, ?_, ?_⟩
  · intro h1 h2; simp [setType, deriveType, h1, h2]
  · intro h1 h2; simp [setType, deriveType, h1, h2]
  · intro h1; simp [setType, deriveType, h1]
  · intro h1 h2; simp [setType, deriveType, h1, h2]
  · intro h1 h2 h3 h4; simp [setType, deriveType, h1, h2, h3, h4]

/-- Witness for C6: a roster row saved with any prior `type` records
`json`; a non-roster `persistence` row records `boolean`; the retyped
roster row is in the table after saving. -/
theorem prosody_save_type_rule_witness :
    (setType rowRoster).type = "json" ∧
    setType ⟨rowRoster.host, rowRoster.user, rowRoster.store, rowRoster.key,
      "number", rowRoster.value⟩ = setType rowRoster ∧
    (setType rowPersist).type = "boolean" ∧
    setType rowRoster ∈ prosodySave [rowRoster] rowRoster :=
  ⟨(prosody_save_type_rule rowRoster).2.2.2.2.2.1 rfl,
    (prosody_save_type_rule rowRoster).2.2.1 "number",
    (prosody_save_type_rule rowPersist).2.2.2.2.2.2.1 rfl (by decide),
    (prosody_save_type_rule rowRoster).2.1 [rowRoster]⟩

/-! ## Claim C8: the raw read path `get_data_store` -/

/-- C8: `get_data_store` returns the mapping from key to raw textual
value over exactly the rows matching `user`/`host` case-insensitively
and `store` exactly (for duplicate keys the last fetched row wins, as in
`dict(...)`), with no type coercion; when no row matches, the mapping is
empty and nothing is raised. -/
theorem get_data_store_spec :
    ∀ (tbl : List Row) (username domain store k : String),
    get_data_store tbl username domain store k =
      (((tbl.filter (gdsMatch username domain store)).filter
        (fun r => r.key == k)).getLast?).map (fun r => r.value) ∧
    ((get_data_store tbl username domain store k).isSome ↔
      ∃ r, r ∈ tbl.filter (gdsMatch username domain store) ∧ r.key = k) ∧
    (tbl.filter (gdsMatch username domain store) = [] →
      ∀ k' : String, get_data_store tbl username domain store k' = none) := by
  intro tbl username domain store k
  have h1 : ∀ k' : String, get_data_store tbl username domain store k' =
      (((tbl.filter (gdsMatch username domain store)).filter
        (fun r => r.key == k')).getLast?).map (fun r => r.value) := by
    intro k'
    unfold get_data_store
    rw [pyDict_getLast, List.filter_map, List.getLast?_map, Option.map_map]
    rfl
  refine ⟨h1 k, ?_, ?_⟩
  · rw [h1 k, Option.isSome_map', List.getLast?_isSome]
    constructor
    · intro hne
      obtain ⟨x, hx⟩ := List.exists_mem_of_ne_nil _ hne
      have hx' := List.mem_filter.mp hx
      exact ⟨x, hx'.1, by simpa using hx'.2⟩
    · rintro ⟨r, hr, hk⟩
      exact List.ne_nil_of_mem (List.mem_filter.mpr ⟨hr, by simp [hk]⟩)
  · intro hnil k'
    rw [h1 k', hnil]
    rfl

/-- Witness for C8: one roster row is found by case-insensitive user and
host lookup with its raw value; the empty table yields the empty
mapping. -/
theorem get_data_store_spec_witness :
    get_data_store [rowRoster] "ALICE" "EXAMPLE.COM" "roster" "contacts" =
      some "\x7b\x7d" ∧
    get_data_store [] "a" "b" "c" "k" = none := by
  have h := get_data_store_spec [rowRoster] "ALICE" "EXAMPLE.COM" "roster" "contacts"
  refine ⟨?_, (get_data_store_spec [] "a" "b" "c" "x").2.2 rfl "k"⟩
  rw [h.1]
  decide

/-! ## Claim C10: `xmpp_online`

`xmpp_online` compares the coerced lastlog mapping's `'event'` entry with
`'login'`.  The claim's plain "contains a row with key `event` and value
`login`" reading fails: a row mistyped as `number` with value `login`
makes `int('login')` raise, so the property is stated over the coerced
mapping (equivalently, the last matching `event` row), with a
parseability premise. -/

/-- C10 counterexample: the store contains a row with key `event` and
value exactly `login`, yet `xmpp_online` raises (`int('login')`) instead
of returning `True`. -/
theorem xmpp_online_raise_cex :
    rowEventNum.key = "event" ∧ rowEventNum.value = "login" ∧
    lastlogRow "bob" rowEventNum = true ∧
    xmpp_online [rowEventNum] "bob" =
      .error "invalid literal for int() with base 10: login" := by
  refine ⟨rfl, rfl, rfl, rfl⟩

/-- C10 (amended): provided every number-typed matching lastlog row has
an integer-parseable value, `xmpp_online` returns (without raising)
`true` iff the last row matching the user case-insensitively with
`store = 'lastlog'` and `key = 'event'` exists, is not number-typed, and
has value exactly `'login'`; in particular with no lastlog rows or no
`event` key the result is `false`. -/
theorem xmpp_online_iff :
    ∀ (tbl : List Row) (username : String),
    (∀ r ∈ tbl.filter (lastlogRow username),
      r.type = "number" → (parseIntQ r.value).isSome = true) →
    xmpp_online tbl username = .ok
      (match ((tbl.filter (lastlogRow username)).filter
          (fun r => r.key == "event")).getLast? with
        | some r => !(r.type == "number") && (r.value == "login")
        | none => false) := by
  intro tbl username hpar
  unfold xmpp_online
  rw [getLastlog_eq tbl username "event" hpar]
  simp only [Except.map]
  congr 1
  cases hl : ((tbl.filter (lastlogRow username)).filter
      (fun r => r.key == "event")).getLast? with
  | none => rfl
  | some r =>
    simp only [Option.map_some']
    by_cases ht : (r.type == "number") = true
    · simp [coerceD, ht]
    · simp only [coerceD, ht, if_false, Bool.not_eq_true', Bool.false_and]
      simp [ht]
      cases hb : r.value == "login" with
      | true => simp [(beq_iff_eq).mp hb]
      | false =>
        have hneq : r.value ≠ "login" := by
          intro he
          rw [he] at hb
          simp at hb
        simp [hneq]

/-- Witness for C10 (amended): a single well-typed `event = login` row
yields `.ok true`. -/
theorem xmpp_online_iff_witness :
    xmpp_online [rowEventLogin] "carol" = .ok true := by
  have h := xmpp_online_iff [rowEventLogin] "carol" (by decide)
  rw [h]
  rfl

/-! ## Claim C7: the typed round trip through `save` and `_get_lastlog` -/

/-- C7: saving `store='lastlog', key='timestamp', value='1000'` for a
user and fetching `'timestamp'` through the typed lastlog accessor
yields the integer `1000`, not the string `"1000"` — whatever `type` the
row carried before the save.  The two premises keep the surrounding
table out of the way: any other matching `timestamp` row belongs to the
user exactly (so the upsert replaces it), and the other number-typed
matching rows parse (so the accessor does not raise first). -/
theorem lastlog_roundtrip : ∀ (tbl : List Row) (h u v : String),
    (∀ r ∈ tbl, lastlogRow u r = true → r.key = "timestamp" → r.user = u) →
    (∀ r ∈ tbl, lastlogRow u r = true → r.type = "number" →
      (parseIntQ r.value).isSome = true) →
    getLastlogField (prosodySave tbl ⟨h, u, "lastlog", "timestamp", v, "1000"⟩)
        u "timestamp" =
      .ok (some (LLValue.num 1000)) := by
  intro tbl h u v H1 H2
  have hparse : ∀ x ∈ (prosodySave tbl ⟨h, u, "lastlog", "timestamp", v, "1000"⟩).filter
      (lastlogRow u), x.type = "number" → (parseIntQ x.value).isSome = true := by
    intro x hx hxt
    have hx' := List.mem_filter.mp hx
    rcases mem_save hx'.1 with hxe | ⟨hxin, -⟩
    · subst hxe
      exact (by decide : (parseIntQ "1000").isSome = true)
    · exact H2 x hxin hx'.2 hxt
  rw [getLastlog_eq _ _ _ hparse]
  have hfinal : (((prosodySave tbl ⟨h, u, "lastlog", "timestamp", v, "1000"⟩).filter
      (lastlogRow u)).filter (fun x => x.key == "timestamp")).getLast? =
      some (setType ⟨h, u, "lastlog", "timestamp", v, "1000"⟩) := by
    apply getLast?_all_eq
    · refine List.ne_nil_of_mem (List.mem_filter.mpr
        ⟨List.mem_filter.mpr ⟨setType_mem_save tbl _, ?_⟩, ?_⟩)
      · simp [lastlogRow, ciEq, setType]
      · rfl
    · intro x hx
      have hx1 := List.mem_filter.mp hx
      have hx2 := List.mem_filter.mp hx1.1
      rcases mem_save hx2.1 with hxe | ⟨hxin, hxsk⟩
      · exact hxe
      · exfalso
        have hku : x.key = "timestamp" := by simpa using hx1.2
        have hust : x.user = u := H1 x hxin hx2.2 hku
        have hsto : x.store = "lastlog" := by
          have hll := hx2.2
          unfold lastlogRow at hll
          rw [Bool.and_eq_true] at hll
          simpa using hll.2
        simp [sameKey, hust, hsto, hku, setType] at hxsk
  rw [hfinal]
  rfl

/-- Witness for C7: the round trip from the empty table. -/
theorem lastlog_roundtrip_witness :
    getLastlogField
        (prosodySave []
          ⟨"example.com", "alice", "lastlog", "timestamp", "string", "1000"⟩)
        "alice" "timestamp" =
      .ok (some (LLValue.num 1000)) :=
  lastlog_roundtrip [] "example.com" "alice" "string" (by simp) (by simp)

end FbxNano
